import Mathlib

/- Verification of the cargo-web asynchronous test harness script
   (the runtime JS file that loads a compiled module, discovers
   `__async_test__*` exports, runs them sequentially with output capture
   and a timeout, and reports a summary plus a process exit code).

   JS objects used as string-keyed dictionaries are embedded as ordered
   association lists (JS objects enumerate string keys in insertion
   order; no key used by the harness is an array index, which would be
   enumerated first).  Fallible JS evaluation is embedded with `Except`:
   reading an identifier that is bound nowhere in the scope chain raises
   a `ReferenceError`. -/

namespace Harness

/-- A JS runtime error surfaced by evaluating the harness script. -/
inductive JsError where
  | referenceError (ident : String)
deriving DecidableEq, Repr

/-- The subset of JS values the harness passes to its reject hook: a
value whose string coercion is `s` (strings, and any non-object via
`"" + error`), or an object carrying a `.stack` string. -/
inductive JsVal where
  | str (s : String)
  | errObj (stack : String)
deriving DecidableEq, Repr

/-- JS object property write `o[k] = v`: overwrites in place when the key
exists, otherwise appends (insertion-order enumeration). -/
def objInsert (k : String) (v : α) : List (String × α) → List (String × α)
  | [] => [(k, v)]
  | (k2, v2) :: rest => if k2 = k then (k2, v) :: rest else (k2, v2) :: objInsert k v rest

/-- JS `o[k] += t` on a string-valued object: appends to the entry when
the key exists; a missing key reads as `undefined`, which string-coerces
before the concatenation. -/
def objAppend (k : String) (t : String) : List (String × String) → List (String × String)
  | [] => [(k, "undefined" ++ t)]
  | (k2, v) :: rest => if k2 = k then (k2, v ++ t) :: rest else (k2, v) :: objAppend k t rest

/-- JS object property read `o[k]`, `none` when the key is absent. -/
def objGet (k : String) : List (String × α) → Option α
  | [] => none
  | (k2, v) :: rest => if k2 = k then some v else objGet k rest

/- ### The filter parser (`get_filter`) -/

/-- JS `s.startsWith(pre)`. -/
def jsStartsWith (s pre : String) : Bool :=
  pre.data.isPrefixOf s.data

/-- The five flags `get_filter` recognizes as taking a value. -/
def isValueFlag (arg : String) : Bool :=
  arg == "--skip" || arg == "--logfile" || arg == "--test-threads" ||
  arg == "--color" || arg == "--format"

/-- Identifiers bound at module scope of the harness script (its
script-level globals, the consts of the wrapping closure) together with
the host globals the script relies on.  Neither `j` (used by
`get_filter`) nor `outputs` / `name` (used by the installed capture
sinks) appears here or in any inner scope. -/
def module_scope_idents : List String :=
  ["Module", "ASYNC_TEST_PRIVATE", "print", "is_node_js", "originals",
   "get_filter", "get_async_tests", "show_summary", "clear_timeout",
   "clean_up", "run_tests", "exit", "state", "env", "target",
   "process", "console", "require", "setTimeout", "clearTimeout",
   "WebAssembly", "Object", "Array", "String", "eval", "__cargo_web"]

/-- Scope chain inside the body of `get_filter`: its parameter, loop
variable and local const, over the module scope. -/
def get_filter_scope : List String :=
  "args" :: "i" :: "arg" :: module_scope_idents

/-- `get_filter(args)`: scans for the first argument not starting with
`--` and returns it as the name filter.  When a recognized value-taking
flag is seen the source executes `j++` — but no `j` is declared in any
enclosing scope (see `get_filter_scope`), so evaluating it raises a
`ReferenceError` instead of advancing the index. -/
def get_filter : List String → Except JsError (Option String)
  | [] => .ok none
  | arg :: rest =>
    if jsStartsWith arg "--" then
      if isValueFlag arg then .error (.referenceError "j")
      else get_filter rest
    else .ok (some arg)

/-- Modelled from the spec: the filter parser as the spec describes it —
each recognized flag consumes the value that follows it, and the first
remaining positional argument is the substring name filter. -/
def get_filter_spec : List String → Option String
  | [] => none
  | arg :: rest =>
    if jsStartsWith arg "--" then
      if isValueFlag arg then
        match rest with
        | [] => none
        | _ :: rest2 => get_filter_spec rest2
      else get_filter_spec rest
    else some arg

/- ### Test discovery (`get_async_tests`) -/

/-- JS regex `.`: any character except a line terminator. -/
def isRegexDot (c : Char) : Bool :=
  c != '\n' && c != '\r' && c != Char.ofNat 0x2028 && c != Char.ofNat 0x2029

/-- The characters of the literal `__async_test__`. -/
def asyncTestPrefix : List Char :=
  ['_', '_', 'a', 's', 'y', 'n', 'c', '_', 't', 'e', 's', 't', '_', '_']

theorem asyncTestPrefix_eq_data : asyncTestPrefix = "__async_test__".data := rfl

/-- Matching the suffix of the regex `__async_test__(.+)` against a
character list: the capture group is the maximal run of `.`-matching
characters after the literal, and it must be non-empty. -/
def matchTail (cs : List Char) : Option String :=
  if asyncTestPrefix.isPrefixOf cs then
    if ((cs.drop asyncTestPrefix.length).takeWhile isRegexDot).isEmpty then none
    else some (String.mk ((cs.drop asyncTestPrefix.length).takeWhile isRegexDot))
  else none

/-- The regex `^_?__async_test__(.+)` on a character list: the optional
leading underscore is tried greedily first, as the regex engine does (at
most one alternative can succeed, see
`matchTail_cons_underscore_of_some`). -/
def asyncTestNameL : List Char → Option String
  | c :: rest =>
    if c = '_' then
      match matchTail rest with
      | some nm => some nm
      | none => matchTail (c :: rest)
    else matchTail (c :: rest)
  | [] => matchTail []

/-- The match `symbol.match(/^_?__async_test__(.+)/)`, returning the
captured test name. -/
def asyncTestName (symbol : String) : Option String :=
  asyncTestNameL symbol.data

/-- Declarative reading of the same regex: `symbol` is an optional single
underscore, the literal `__async_test__`, then the captured `name` — a
non-empty run of non-line-terminator characters extending to the end of
the symbol or to the first line terminator. -/
def matchesPattern (symbol name : String) : Prop :=
  name.data ≠ [] ∧ (∀ c ∈ name.data, isRegexDot c = true) ∧
  ∃ u t : List Char, (u = [] ∨ u = ['_']) ∧
    symbol.data = u ++ asyncTestPrefix ++ name.data ++ t ∧
    (t = [] ∨ ∃ c cs, t = c :: cs ∧ isRegexDot c = false)

/-- Substring search on character lists (the semantics of a successful
JS `indexOf`). -/
def hasSubstrAux (pat : List Char) : List Char → Bool
  | [] => pat.isEmpty
  | c :: rest => pat.isPrefixOf (c :: rest) || hasSubstrAux pat rest

/-- JS `s.indexOf(pat) !== -1`. -/
def jsIncludes (s pat : String) : Bool :=
  hasSubstrAux pat.data s.data

/-- The filter test inside `get_async_tests`: with a null filter every
name passes, otherwise the name must contain the filter as a plain
substring. -/
def passFilter (filter : Option String) (name : String) : Bool :=
  match filter with
  | none => true
  | some f => jsIncludes name f

/-- One iteration of the discovery loop: if the symbol matches the regex
and the captured name passes the filter, record it in the `tests`
object under that name. -/
def discoverStep (filter : Option String) (tests : List (String × α))
    (p : String × α) : List (String × α) :=
  match asyncTestName p.1 with
  | some name =>
    if passFilter filter name then objInsert name p.2 tests else tests
  | none => tests

/-- `get_async_tests(filter, exports)`: walk the export table in its
enumeration order, keep every symbol matching the async-test regex
(subject to the substring filter), and record it in the `tests` object
under the captured name. -/
def get_async_tests (filter : Option String) (exports : List (String × α)) :
    List (String × α) :=
  exports.foldl (discoverStep filter) []

/-- The sequence of test names the export table yields, in enumeration
order (match the regex, then apply the filter). -/
def matchedNames (filter : Option String) (exports : List (String × α)) :
    List String :=
  exports.filterMap (fun p =>
    match asyncTestName p.1 with
    | some name => if passFilter filter name then some name else none
    | none => none)

/- ### Scheduler state -/

/-- The mutable aggregate `state` the harness script creates: per-test
captured output, the failed-test names in failure order, and the pass
counter.  (The `current_timeout` timer handle is subsumed by the outcome
abstraction below: a cleared timer never fires.) -/
structure HarnessState where
  outputs : List (String × String)
  failed : List String
  n_passed : Nat
deriving DecidableEq, Repr

/-- The initial `state` object of the script. -/
def initial_state : HarnessState :=
  { outputs := [], failed := [], n_passed := 0 }

/- ### The output-capture sinks installed around a test body -/

/-- Scope chain inside the replacement `process.stdout.write` /
`process.stderr.write` / `console.log` functions installed before a test
body runs: their own parameter, the locals of `run_tests`, then the
module scope. -/
def capture_scope : List String :=
  "text" :: "state" :: "tests" :: "test_name" :: "callback" :: module_scope_idents

/-- The installed capture sink.  Its body is `outputs[ name ] += text` —
but no `outputs` is bound anywhere in its scope chain (see
`capture_scope`; the harness state's map is reachable only as
`state.outputs`), so the very first evaluation step, reading the
identifier `outputs`, raises a `ReferenceError`; the state is never
touched. -/
def captured_write (st : HarnessState) (test_name text : String) :
    Except JsError HarnessState :=
  .error (.referenceError "outputs")

/-- Modelled from the spec: `beginCapture(testName)` redirects the output
channels so that written text accumulates in
`HarnessState.outputs[testName]`. -/
def captured_write_spec (st : HarnessState) (test_name text : String) :
    HarnessState :=
  { st with outputs := objAppend test_name text st.outputs }

/- ### The sequential scheduler (`run_tests`), reporter and exit wrapper -/

/-- How a test body settles through the single-slot hooks. -/
inductive SettleKind where
  | resolve
  | reject (e : JsVal)
deriving DecidableEq, Repr

/-- The timeout the scheduler arms before invoking a test body
(milliseconds). -/
def timeout_ms : Nat := 5000

/-- Behaviour of one scheduled test body, after racing it against the
5000 ms timer: it settles through the hook it reaches first, throws
synchronously, or hangs until the timer fires.  A body whose own
settlement would occur at `t ≥ timeout_ms` loses the race: the timer was
armed before the body ran, so it fires first. -/
inductive Outcome where
  | resolves
  | rejects (e : JsVal)
  | throwsSync (e : JsVal)
  | hangs
deriving DecidableEq, Repr

/-- Classify an asynchronous body by when and how it would settle
(`none` = never): within the window it settles itself, otherwise the
armed timer synthesizes the rejection. -/
def outcomeOf : Option (Nat × SettleKind) → Outcome
  | none => .hangs
  | some (t, .resolve) => if t < timeout_ms then .resolves else .hangs
  | some (t, .reject e) => if t < timeout_ms then .rejects e else .hangs

/-- The text `ASYNC_TEST_PRIVATE.reject` appends to the current test's
captured output: an object with a truthy `.stack` contributes its stack
trace, everything else its plain string coercion (a stackless object
coerces to `[object Object]`). -/
def rejectedText : JsVal → String
  | .str s => "Rejected with error: " ++ s ++ "\n"
  | .errObj stack =>
    if stack = "" then "Rejected with error: [object Object]\n"
    else "Rejected with error: " ++ stack ++ "\n"

/-- The state change `ASYNC_TEST_PRIVATE.reject(e)` performs: append the
diagnostic to the test's captured output and the test's name to the
failed list. -/
def rejectState (st : HarnessState) (test_name : String) (e : JsVal) :
    HarnessState :=
  { st with
    outputs := objAppend test_name (rejectedText e) st.outputs,
    failed := st.failed ++ [test_name] }

/-- Settling one test: `resolve` bumps the pass counter and prints
`ok`, every failure path (rejection, synchronous throw, timer-synthesized
`"Timeout!"`) goes through `reject` and prints `FAILED`.  Both hooks
restore the output channels (`clean_up`) and disarm the timer before the
scheduler advances. -/
def settle (st : HarnessState) (test_name : String) : Outcome → HarnessState × String
  | .resolves => ({ st with n_passed := st.n_passed + 1 }, "ok\n")
  | .rejects e => (rejectState st test_name e, "FAILED\n")
  | .throwsSync e => (rejectState st test_name e, "FAILED\n")
  | .hangs => (rejectState st test_name (.str "Timeout!"), "FAILED\n")

/-- Whether an outcome is the passing one. -/
def isResolve : Outcome → Bool
  | .resolves => true
  | _ => false

/-- The patched `exit` the harness installs over `process.exit` /
`onExit`: a zero status with a non-empty failed list is promoted to 101,
anything else is forwarded to the real exit unchanged. -/
def exit (failed : List String) (status : Int) : Int :=
  if failed.length ≠ 0 ∧ status = 0 then 101 else status

/-- `show_summary(state)`: the text printed by the reporter — per failed
test (in failure order) a header and its captured output when non-empty,
then the `failures (async):` name list, then the final result line. -/
def show_summary_text (st : HarnessState) : String :=
  let failDumps := String.join (st.failed.map (fun nm =>
    let output := (objGet nm st.outputs).getD ""
    if output.length ≠ 0 then "---- " ++ nm ++ "----\n" ++ output ++ "\n" else ""))
  let failList :=
    if st.failed.length ≠ 0 then
      "failures (async):\n" ++
        String.join (st.failed.map (fun nm => "    " ++ nm ++ "\n")) ++ "\n"
    else ""
  let status := if st.failed.length ≠ 0 then "FAILED" else "ok"
  failDumps ++ failList ++ "test result (async): " ++ status ++ ". " ++
    toString st.n_passed ++ " passed; " ++ toString st.failed.length ++ " failed\n\n"

/-- Result of a completed harness run: the final state, everything the
harness itself printed to the live console, the arguments the real
`main` was finally invoked with, the status handed to the real exit, and
the test names in invocation order. -/
structure RunResult where
  state : HarnessState
  printed : String
  ranMainWith : Option (List Int)
  exitStatus : Option Int
  execOrder : List String
deriving DecidableEq, Repr

/-- The terminal branch of `run_tests`: `target.run_main()` invokes the
real `main` with the originally captured arguments and then
`show_summary`; afterwards `exit(0)` runs the patched exit wrapper. -/
def finishRun (margs : List Int) (st : HarnessState) : RunResult :=
  { state := st,
    printed := show_summary_text st,
    ranMainWith := some margs,
    exitStatus := some (exit st.failed 0),
    execOrder := [] }

/-- `run_tests(state, tests)`: pop the first key of the `tests` object;
a missing (or empty, which is equally falsy) name ends the run through
`run_main` and `exit(0)`.  Otherwise print the one-time `running` banner,
initialize the test's capture buffer, print the `test <name> ... ` line,
schedule the body on the next turn armed with the 5000 ms timer, and on
whichever settlement wins print `ok`/`FAILED` and recurse on the rest. -/
def run_tests (margs : List Int) : HarnessState → List (String × Outcome) → RunResult
  | st, [] => finishRun margs st
  | st, (test_name, oc) :: rest =>
    if test_name = "" then finishRun margs st
    else
      let banner :=
        if st.failed.length = 0 ∧ st.n_passed = 0 then
          "running " ++ toString (rest.length + 1) ++ " async test(s)\n"
        else ""
      let st1 : HarnessState := { st with outputs := objInsert test_name "" st.outputs }
      let res := settle st1 test_name oc
      let tail := run_tests margs res.1 rest
      { state := tail.state,
        printed := banner ++ "test " ++ test_name ++ " ... " ++ res.2 ++ tail.printed,
        ranMainWith := tail.ranMainWith,
        exitStatus := tail.exitStatus,
        execOrder := test_name :: tail.execOrder }

/- ### Association-list helper lemmas -/

theorem objGet_objInsert_self (k : String) (v : α) (l : List (String × α)) :
    objGet k (objInsert k v l) = some v := by
  induction l with
  | nil => simp [objInsert, objGet]
  | cons q rest ih =>
    obtain ⟨k2, v2⟩ := q
    by_cases h : k2 = k
    · simp [objInsert, objGet, h]
    · simp [objInsert, objGet, h, ih]

theorem objGet_objAppend_of_present (k t v : String) (l : List (String × String))
    (h : objGet k l = some v) : objGet k (objAppend k t l) = some (v ++ t) := by
  induction l with
  | nil => simp [objGet] at h
  | cons q rest ih =>
    obtain ⟨k2, v2⟩ := q
    by_cases hk : k2 = k
    · rw [objGet, if_pos hk] at h
      cases h
      simp [objAppend, objGet, hk]
    · rw [objGet, if_neg hk] at h
      simp [objAppend, objGet, hk, ih h]

theorem mem_map_fst_objInsert (a k : String) (v : α) (l : List (String × α)) :
    a ∈ (objInsert k v l).map Prod.fst ↔ a = k ∨ a ∈ l.map Prod.fst := by
  induction l with
  | nil => simp [objInsert]
  | cons q rest ih =>
    obtain ⟨k2, v2⟩ := q
    by_cases h : k2 = k
    · subst h
      simp [objInsert]
    · simp [objInsert, h, ih]
      tauto

theorem map_fst_objInsert_of_not_mem (k : String) (v : α) (l : List (String × α))
    (h : k ∉ l.map Prod.fst) :
    (objInsert k v l).map Prod.fst = l.map Prod.fst ++ [k] := by
  induction l with
  | nil => simp [objInsert]
  | cons q rest ih =>
    obtain ⟨k2, v2⟩ := q
    rw [List.map_cons] at h
    have h1 : k ≠ k2 := fun hk => h (by simp [hk])
    have h2 : k ∉ rest.map Prod.fst := fun hk => h (by simp [hk])
    rw [objInsert, if_neg (fun hk => h1 hk.symm)]
    simp [ih h2]

theorem mem_objInsert (q : String × α) (k : String) (v : α) (l : List (String × α))
    (h : q ∈ objInsert k v l) : q.1 = k ∨ q ∈ l := by
  induction l with
  | nil =>
    simp [objInsert] at h
    subst h
    left
    rfl
  | cons r rest ih =>
    obtain ⟨k2, v2⟩ := r
    by_cases hk : k2 = k
    · rw [objInsert, if_pos hk] at h
      rcases List.mem_cons.mp h with h1 | h1
      · left
        rw [h1, hk]
      · right
        exact List.mem_cons_of_mem _ h1
    · rw [objInsert, if_neg hk] at h
      rcases List.mem_cons.mp h with h1 | h1
      · right
        exact h1 ▸ List.mem_cons_self _ _
      · rcases ih h1 with h2 | h2
        · left
          exact h2
        · right
          exact List.mem_cons_of_mem _ h2

/- ### Substring search agrees with `List.IsInfix` -/

theorem hasSubstrAux_iff_infix (pat l : List Char) :
    hasSubstrAux pat l = true ↔ pat <:+: l := by
  induction l with
  | nil => simp [hasSubstrAux, List.isEmpty_iff, List.infix_nil]
  | cons c rest ih =>
    simp [hasSubstrAux, List.isPrefixOf_iff_prefix, ih, List.infix_cons_iff]

theorem jsIncludes_iff (s pat : String) :
    jsIncludes s pat = true ↔ pat.data <:+: s.data :=
  hasSubstrAux_iff_infix pat.data s.data

/- ### takeWhile / dropWhile helpers -/

theorem dropWhile_head_cases (p : Char → Bool) (l : List Char) :
    l.dropWhile p = [] ∨ ∃ c cs, l.dropWhile p = c :: cs ∧ p c = false := by
  induction l with
  | nil => left; rfl
  | cons a l ih =>
    by_cases h : p a
    · simpa [List.dropWhile_cons, h] using ih
    · right
      exact ⟨a, l, by simp [List.dropWhile_cons, h], by simp [h]⟩

theorem takeWhile_all_append (p : Char → Bool) (l1 l2 : List Char)
    (h1 : ∀ a ∈ l1, p a = true)
    (h2 : l2 = [] ∨ ∃ c cs, l2 = c :: cs ∧ p c = false) :
    (l1 ++ l2).takeWhile p = l1 := by
  induction l1 with
  | nil =>
    rcases h2 with h | ⟨c, cs, rfl, hc⟩
    · simp [h]
    · simp [List.takeWhile_cons, hc]
  | cons a l ih =>
    have ha := h1 a (List.mem_cons_self _ _)
    simp only [List.cons_append, List.takeWhile_cons, ha, if_true]
    rw [ih (fun x hx => h1 x (List.mem_cons_of_mem _ hx))]

theorem length_filter_partition (p : α → Bool) (l : List α) :
    (l.filter p).length + (l.filter (fun a => !p a)).length = l.length := by
  induction l with
  | nil => rfl
  | cons a l ih =>
    by_cases h : p a
    · simp [List.filter_cons, h]
      omega
    · simp [List.filter_cons, h]
      omega

/- ### Characterizing the async-test regex match -/

theorem matchTail_eq_some_iff (cs : List Char) (n : String) :
    matchTail cs = some n ↔
      n.data ≠ [] ∧ (∀ c ∈ n.data, isRegexDot c = true) ∧
      ∃ t : List Char, cs = asyncTestPrefix ++ n.data ++ t ∧
        (t = [] ∨ ∃ c cs2, t = c :: cs2 ∧ isRegexDot c = false) := by
  constructor
  · intro h
    rw [matchTail] at h
    by_cases hpre : asyncTestPrefix.isPrefixOf cs
    case neg => rw [if_neg hpre] at h; cases h
    rw [if_pos hpre] at h
    obtain ⟨w, hw⟩ := List.isPrefixOf_iff_prefix.mp hpre
    have hdrop : cs.drop asyncTestPrefix.length = w := by
      rw [← hw, List.drop_left]
    rw [hdrop] at h
    by_cases hempty : (w.takeWhile isRegexDot).isEmpty
    · rw [if_pos hempty] at h; cases h
    rw [if_neg hempty] at h
    cases h
    refine ⟨fun hn => hempty (by simpa [List.isEmpty_iff] using hn), ?_, ?_⟩
    · intro c hc
      exact List.mem_takeWhile_imp hc
    · refine ⟨w.dropWhile isRegexDot, ?_, dropWhile_head_cases isRegexDot w⟩
      rw [List.append_assoc]
      show cs = asyncTestPrefix ++ ((String.mk (w.takeWhile isRegexDot)).data ++ w.dropWhile isRegexDot)
      rw [← hw]
      congr 1
      exact (List.takeWhile_append_dropWhile isRegexDot w).symm
  · rintro ⟨hne, hall, t, hcs, htail⟩
    have hpre : asyncTestPrefix.isPrefixOf cs := by
      rw [hcs, List.append_assoc]
      exact List.isPrefixOf_iff_prefix.mpr (List.prefix_append _ _)
    have hdrop : cs.drop asyncTestPrefix.length = n.data ++ t := by
      rw [hcs, List.append_assoc, List.drop_left]
    have htake : (n.data ++ t).takeWhile isRegexDot = n.data :=
      takeWhile_all_append isRegexDot n.data t hall htail
    rw [matchTail, if_pos hpre, hdrop, htake,
      if_neg (fun he => hne (List.isEmpty_iff.mp he))]

/-- If the tail after a leading underscore already matches, prepending
that underscore spoils the match: the symbol would need three leading
underscores where the literal has an `a`. -/
theorem matchTail_cons_underscore_of_some (rest : List Char) (nm : String)
    (h : matchTail rest = some nm) : matchTail ('_' :: rest) = none := by
  have hpre : asyncTestPrefix.isPrefixOf rest := by
    by_contra hc
    rw [matchTail, if_neg hc] at h
    cases h
  obtain ⟨w, hw⟩ := List.isPrefixOf_iff_prefix.mp hpre
  rw [matchTail]
  have : asyncTestPrefix.isPrefixOf ('_' :: rest) = false := by
    rw [← hw]
    rfl
  rw [this]
  simp

theorem asyncTestName_eq_some_iff (symbol : String) (n : String) :
    asyncTestName symbol = some n ↔ matchesPattern symbol n := by
  have hbridge : matchesPattern symbol n ↔
      (matchTail symbol.data = some n ∨
        ∃ rest, symbol.data = '_' :: rest ∧ matchTail rest = some n) := by
    constructor
    · rintro ⟨hne, hall, u, t, hu, heq, htail⟩
      rcases hu with rfl | rfl
      · left
        rw [matchTail_eq_some_iff]
        exact ⟨hne, hall, t, by simpa using heq, htail⟩
      · right
        refine ⟨asyncTestPrefix ++ n.data ++ t, by simpa using heq, ?_⟩
        rw [matchTail_eq_some_iff]
        exact ⟨hne, hall, t, rfl, htail⟩
    · rintro (h | ⟨rest, hsym, h⟩)
      · rw [matchTail_eq_some_iff] at h
        obtain ⟨hne, hall, t, hcs, htail⟩ := h
        exact ⟨hne, hall, [], t, Or.inl rfl, by simpa using hcs, htail⟩
      · rw [matchTail_eq_some_iff] at h
        obtain ⟨hne, hall, t, hcs, htail⟩ := h
        exact ⟨hne, hall, ['_'], t, Or.inr rfl, by simp [hsym, hcs], htail⟩
  rw [hbridge, asyncTestName]
  generalize symbol.data = cs
  cases cs with
  | nil =>
    have hnone : matchTail ([] : List Char) = none := rfl
    simp [asyncTestNameL, hnone]
  | cons c rest =>
    by_cases hc : c = '_'
    · subst hc
      cases hrest : matchTail rest with
      | some nm =>
        have hspoil := matchTail_cons_underscore_of_some rest nm hrest
        rw [asyncTestNameL, if_pos rfl]
        simp only [hrest, hspoil]
        constructor
        · intro h
          exact Or.inr ⟨rest, rfl, by rw [hrest, h]⟩
        · rintro (h | ⟨rest2, hr2, h2⟩)
          · cases h
          · rw [List.cons.injEq] at hr2
            rw [hr2.2] at hrest
            rw [hrest] at h2
            exact h2
      | none =>
        rw [asyncTestNameL, if_pos rfl]
        simp only [hrest]
        constructor
        · intro h
          exact Or.inl h
        · rintro (h | ⟨rest2, hr2, h2⟩)
          · exact h
          · rw [List.cons.injEq] at hr2
            rw [hr2.2] at hrest
            rw [hrest] at h2
            cases h2
    · rw [asyncTestNameL, if_neg hc]
      constructor
      · intro h
        exact Or.inl h
      · rintro (h | ⟨rest2, hr2, h2⟩)
        · exact h
        · rw [List.cons.injEq] at hr2
          exact absurd hr2.1 hc

/-- A captured test name is never the empty string (the capture group
needs at least one character). -/
theorem asyncTestName_ne_empty (symbol n : String)
    (h : asyncTestName symbol = some n) : n ≠ "" := by
  rw [asyncTestName_eq_some_iff] at h
  intro he
  subst he
  exact h.1 rfl

/- ### Discovery lemmas -/

theorem mem_map_fst_foldl_discoverStep (filter : Option String)
    (exports : List (String × α)) :
    ∀ (acc : List (String × α)) (a : String),
      a ∈ (exports.foldl (discoverStep filter) acc).map Prod.fst ↔
        a ∈ acc.map Prod.fst ∨
          ∃ p ∈ exports, asyncTestName p.1 = some a ∧ passFilter filter a = true := by
  induction exports with
  | nil => intro acc a; simp
  | cons q rest ih =>
    intro acc a
    rw [List.foldl_cons, ih]
    cases hq : asyncTestName q.1 with
    | none =>
      simp only [discoverStep, hq, List.mem_cons]
      constructor
      · rintro (h | ⟨p, hp, hm, hf⟩)
        · exact Or.inl h
        · exact Or.inr ⟨p, Or.inr hp, hm, hf⟩
      · rintro (h | ⟨p, rfl | hp2, hm, hf⟩)
        · exact Or.inl h
        · rw [hm] at hq
          cases hq
        · exact Or.inr ⟨p, hp2, hm, hf⟩
    | some nm =>
      by_cases hfil : passFilter filter nm = true
      · simp only [discoverStep, hq, if_pos hfil, mem_map_fst_objInsert]
        constructor
        · rintro ((h | h) | ⟨p, hp, hm, hf⟩)
          · exact Or.inr ⟨q, List.mem_cons_self _ _, by rw [hq, h], by rw [h]; exact hfil⟩
          · exact Or.inl h
          · exact Or.inr ⟨p, List.mem_cons_of_mem _ hp, hm, hf⟩
        · rintro (h | ⟨p, hp, hm, hf⟩)
          · exact Or.inl (Or.inr h)
          · rcases List.mem_cons.mp hp with rfl | hp2
            · rw [hm] at hq
              cases hq
              exact Or.inl (Or.inl rfl)
            · exact Or.inr ⟨p, hp2, hm, hf⟩
      · simp only [discoverStep, hq, if_neg hfil]
        constructor
        · rintro (h | ⟨p, hp, hm, hf⟩)
          · exact Or.inl h
          · exact Or.inr ⟨p, List.mem_cons_of_mem _ hp, hm, hf⟩
        · rintro (h | ⟨p, hp, hm, hf⟩)
          · exact Or.inl h
          · rcases List.mem_cons.mp hp with rfl | hp2
            · rw [hm] at hq
              cases hq
              exact absurd hf hfil
            · exact Or.inr ⟨p, hp2, hm, hf⟩

theorem mem_map_fst_get_async_tests (filter : Option String)
    (exports : List (String × α)) (a : String) :
    a ∈ (get_async_tests filter exports).map Prod.fst ↔
      ∃ p ∈ exports, asyncTestName p.1 = some a ∧ passFilter filter a = true := by
  rw [get_async_tests, mem_map_fst_foldl_discoverStep]
  simp

theorem map_fst_foldl_discoverStep (filter : Option String)
    (exports : List (String × α)) :
    ∀ acc : List (String × α),
      (acc.map Prod.fst ++ matchedNames filter exports).Nodup →
      (exports.foldl (discoverStep filter) acc).map Prod.fst =
        acc.map Prod.fst ++ matchedNames filter exports := by
  induction exports with
  | nil => intro acc _; simp [matchedNames]
  | cons q rest ih =>
    intro acc hnd
    rw [List.foldl_cons]
    cases hq : asyncTestName q.1 with
    | none =>
      have hm : matchedNames filter (q :: rest) = matchedNames filter rest := by
        simp [matchedNames, List.filterMap_cons, hq]
      rw [hm] at hnd
      simp only [discoverStep, hq]
      rw [ih acc hnd, hm]
    | some nm =>
      by_cases hfil : passFilter filter nm = true
      · have hm : matchedNames filter (q :: rest) = nm :: matchedNames filter rest := by
          simp [matchedNames, List.filterMap_cons, hq, hfil]
        rw [hm] at hnd
        have hnotmem : nm ∉ acc.map Prod.fst := by
          rw [List.nodup_append] at hnd
          intro hc
          exact hnd.2.2 hc (List.mem_cons_self _ _)
        have hkeys : (objInsert nm q.2 acc).map Prod.fst = acc.map Prod.fst ++ [nm] :=
          map_fst_objInsert_of_not_mem nm q.2 acc hnotmem
        have hnd2 : ((objInsert nm q.2 acc).map Prod.fst ++ matchedNames filter rest).Nodup := by
          rw [hkeys, List.append_assoc]
          simpa using hnd
        simp only [discoverStep, hq, if_pos hfil]
        rw [ih _ hnd2, hkeys, hm, List.append_assoc]
        rfl
      · have hm : matchedNames filter (q :: rest) = matchedNames filter rest := by
          simp [matchedNames, List.filterMap_cons, hq, hfil]
        rw [hm] at hnd
        simp only [discoverStep, hq, if_neg hfil]
        rw [ih acc hnd, hm]

theorem map_fst_get_async_tests (filter : Option String)
    (exports : List (String × α)) (hnd : (matchedNames filter exports).Nodup) :
    (get_async_tests filter exports).map Prod.fst = matchedNames filter exports := by
  rw [get_async_tests, map_fst_foldl_discoverStep filter exports [] (by simpa using hnd)]
  rfl

theorem get_async_tests_names_ne_empty (filter : Option String)
    (exports : List (String × α)) :
    ∀ p ∈ get_async_tests filter exports, p.1 ≠ "" := by
  intro p hp hc
  have : p.1 ∈ (get_async_tests filter exports).map Prod.fst :=
    List.mem_map_of_mem Prod.fst hp
  rw [mem_map_fst_get_async_tests] at this
  obtain ⟨q, _, hm, _⟩ := this
  exact asyncTestName_ne_empty q.1 p.1 hm hc

/- ### Scheduler run lemmas -/

theorem settle_failed (st : HarnessState) (nm : String) (oc : Outcome) :
    (settle st nm oc).1.failed =
      if isResolve oc then st.failed else st.failed ++ [nm] := by
  cases oc <;> simp [settle, rejectState, isResolve]

theorem settle_n_passed (st : HarnessState) (nm : String) (oc : Outcome) :
    (settle st nm oc).1.n_passed =
      if isResolve oc then st.n_passed + 1 else st.n_passed := by
  cases oc <;> simp [settle, rejectState, isResolve]

theorem run_tests_exitStatus (margs : List Int) :
    ∀ (tests : List (String × Outcome)) (st : HarnessState),
      (run_tests margs st tests).exitStatus =
        some (if (run_tests margs st tests).state.failed = [] then (0 : Int) else 101) := by
  have hfin : ∀ st : HarnessState,
      (finishRun margs st).exitStatus =
        some (if (finishRun margs st).state.failed = [] then (0 : Int) else 101) := by
    intro st
    rw [finishRun]
    cases h : st.failed with
    | nil => simp [Harness.exit, h]
    | cons a l => simp [Harness.exit, h]
  intro tests
  induction tests with
  | nil => intro st; exact hfin st
  | cons q rest ih =>
    intro st
    obtain ⟨nm, oc⟩ := q
    by_cases hnm : nm = ""
    · rw [run_tests, if_pos hnm]
      exact hfin st
    · rw [run_tests, if_neg hnm]
      exact ih _

theorem run_tests_execOrder (margs : List Int) :
    ∀ (tests : List (String × Outcome)) (st : HarnessState),
      (∀ p ∈ tests, p.1 ≠ "") →
      (run_tests margs st tests).execOrder = tests.map Prod.fst := by
  intro tests
  induction tests with
  | nil => intro st _; rfl
  | cons q rest ih =>
    intro st h
    obtain ⟨nm, oc⟩ := q
    have hnm : nm ≠ "" := h (nm, oc) (List.mem_cons_self _ _)
    rw [run_tests, if_neg hnm, List.map_cons]
    exact congrArg (nm :: ·) (ih _ (fun p hp => h p (List.mem_cons_of_mem _ hp)))

theorem run_tests_counts (margs : List Int) :
    ∀ (tests : List (String × Outcome)) (st : HarnessState),
      (∀ p ∈ tests, p.1 ≠ "") →
      (run_tests margs st tests).state.n_passed =
          st.n_passed + (tests.filter (fun p => isResolve p.2)).length ∧
        (run_tests margs st tests).state.failed =
          st.failed ++ (tests.filter (fun p => !isResolve p.2)).map Prod.fst := by
  intro tests
  induction tests with
  | nil => intro st _; exact ⟨rfl, by simp [run_tests, finishRun]⟩
  | cons q rest ih =>
    intro st h
    obtain ⟨nm, oc⟩ := q
    have hnm : nm ≠ "" := h (nm, oc) (List.mem_cons_self _ _)
    have htail := ih (settle { st with outputs := objInsert nm "" st.outputs } nm oc).1
      (fun p hp => h p (List.mem_cons_of_mem _ hp))
    rw [run_tests, if_neg hnm]
    cases hoc : isResolve oc with
    | true =>
      have hfa := settle_failed { st with outputs := objInsert nm "" st.outputs } nm oc
      have hnp := settle_n_passed { st with outputs := objInsert nm "" st.outputs } nm oc
      rw [hoc, if_pos rfl] at hfa hnp
      constructor
      · rw [htail.1, hnp]
        simp [List.filter_cons, hoc]
        omega
      · rw [htail.2, hfa]
        simp [List.filter_cons, hoc]
    | false =>
      have hfa := settle_failed { st with outputs := objInsert nm "" st.outputs } nm oc
      have hnp := settle_n_passed { st with outputs := objInsert nm "" st.outputs } nm oc
      rw [hoc] at hfa hnp
      simp only [if_false, Bool.false_eq_true] at hfa hnp
      constructor
      · rw [htail.1, hnp]
        simp [List.filter_cons, hoc]
      · rw [htail.2, hfa]
        simp [List.filter_cons, hoc, List.append_assoc]

/- ### Claim theorems -/

/-- Claim C1: for every run of the harness that reaches its exit path
(the queue drains, the real `main` returns normally, and `exit(0)`
runs), the process exit status is 0 if and only if the list of failed
tests is empty, and 101 otherwise. -/
theorem exit_code_zero_iff_no_failures (margs : List Int) (st : HarnessState)
    (tests : List (String × Outcome)) :
    (run_tests margs st tests).exitStatus =
        some (if (run_tests margs st tests).state.failed = [] then (0 : Int) else 101) ∧
      ((run_tests margs st tests).exitStatus = some 0 ↔
        (run_tests margs st tests).state.failed = []) := by
  have h := run_tests_exitStatus margs tests st
  refine ⟨h, ?_⟩
  rw [h]
  by_cases hf : (run_tests margs st tests).state.failed = []
  · simp [hf]
  · simp [hf]

theorem exit_code_zero_iff_no_failures_witness :
    (run_tests [] initial_state [("a", Outcome.resolves), ("b", Outcome.hangs)]).exitStatus =
        some (if (run_tests [] initial_state
            [("a", Outcome.resolves), ("b", Outcome.hangs)]).state.failed = []
          then (0 : Int) else 101) ∧
      ((run_tests [] initial_state
            [("a", Outcome.resolves), ("b", Outcome.hangs)]).exitStatus = some 0 ↔
        (run_tests [] initial_state
            [("a", Outcome.resolves), ("b", Outcome.hangs)]).state.failed = []) :=
  exit_code_zero_iff_no_failures [] initial_state
    [("a", Outcome.resolves), ("b", Outcome.hangs)]

/-- Claim C2 (code bug): the capture sinks installed for a test's
execution window do not accumulate anything into
`HarnessState.outputs[testName]` — their body reads the identifier
`outputs`, which is bound nowhere in their scope chain, so every write
during capture raises a `ReferenceError` and leaves the state untouched;
the spec-modelled sink would have appended the text. -/
theorem capture_sink_never_accumulates :
    (∀ (st : HarnessState) (nm text : String),
        captured_write st nm text = Except.error (JsError.referenceError "outputs")) ∧
      "outputs" ∉ capture_scope ∧
      captured_write_spec { initial_state with outputs := [("t", "")] } "t" "hi" =
        { initial_state with outputs := [("t", "hi")] } :=
  ⟨fun _ _ _ => rfl, by decide, rfl⟩

/-- Claim C3 (code bug): when `get_filter` meets a recognized
value-taking flag it executes `j++` on the undeclared identifier `j`, so
it raises a `ReferenceError` instead of consuming the flag's value; the
spec-modelled parser returns the first positional argument after the
consumed pair.  On flag-free input the code does return the first
non-`--` argument, and `null` when there is none. -/
theorem get_filter_value_flag_raises :
    get_filter ["--skip", "other", "real"] =
        Except.error (JsError.referenceError "j") ∧
      "j" ∉ get_filter_scope ∧
      get_filter_spec ["--skip", "other", "real"] = some "real" ∧
      get_filter ["--nocapture", "real"] = Except.ok (some "real") ∧
      get_filter [] = Except.ok none :=
  ⟨rfl, by decide, rfl, rfl, rfl⟩

/-- Claim C4: a test that neither resolves nor rejects within the
5000 ms window gets a synthesized rejection with reason `"Timeout!"`:
its name is appended to the failed list, the reason is appended to its
captured output, and the scheduler proceeds with the remaining queue
instead of aborting. -/
theorem timeout_synthesizes_rejection (margs : List Int) (st : HarnessState)
    (nm : String) (sched : Option (Nat × SettleKind))
    (rest : List (String × Outcome)) (hnm : nm ≠ "")
    (hs : outcomeOf sched = Outcome.hangs) :
    (run_tests margs st ((nm, outcomeOf sched) :: rest)).state =
        (run_tests margs
          (rejectState { st with outputs := objInsert nm "" st.outputs } nm
            (JsVal.str "Timeout!")) rest).state ∧
      (rejectState { st with outputs := objInsert nm "" st.outputs } nm
          (JsVal.str "Timeout!")).failed = st.failed ++ [nm] ∧
      objGet nm (rejectState { st with outputs := objInsert nm "" st.outputs } nm
          (JsVal.str "Timeout!")).outputs = some "Rejected with error: Timeout!\n" ∧
      (run_tests margs st ((nm, outcomeOf sched) :: rest)).execOrder =
        nm :: (run_tests margs
          (rejectState { st with outputs := objInsert nm "" st.outputs } nm
            (JsVal.str "Timeout!")) rest).execOrder := by
  rw [hs]
  refine ⟨?_, rfl, ?_, ?_⟩
  · rw [run_tests, if_neg hnm]
    rfl
  · exact objGet_objAppend_of_present nm (rejectedText (JsVal.str "Timeout!")) ""
      (objInsert nm "" st.outputs) (objGet_objInsert_self nm "" st.outputs)
  · rw [run_tests, if_neg hnm]
    rfl

theorem timeout_synthesizes_rejection_witness :
    (run_tests [] initial_state [("t", outcomeOf none)]).state =
        (run_tests []
          (rejectState { initial_state with
            outputs := objInsert "t" "" initial_state.outputs } "t"
            (JsVal.str "Timeout!")) []).state ∧
      (rejectState { initial_state with
          outputs := objInsert "t" "" initial_state.outputs } "t"
          (JsVal.str "Timeout!")).failed = initial_state.failed ++ ["t"] ∧
      objGet "t" (rejectState { initial_state with
          outputs := objInsert "t" "" initial_state.outputs } "t"
          (JsVal.str "Timeout!")).outputs = some "Rejected with error: Timeout!\n" ∧
      (run_tests [] initial_state [("t", outcomeOf none)]).execOrder =
        "t" :: (run_tests []
          (rejectState { initial_state with
            outputs := objInsert "t" "" initial_state.outputs } "t"
            (JsVal.str "Timeout!")) []).execOrder :=
  timeout_synthesizes_rejection [] initial_state "t" none [] (by decide) rfl

/-- Claim C5: for every discovered (post-filter) test set, the completed
run partitions it exactly: the pass counter counts precisely the
resolving tests, the failed list is precisely the names of the
non-resolving tests, and the two counts sum to the number of discovered
tests. -/
theorem pass_fail_partition (margs : List Int) (filter : Option String)
    (exports : List (String × Outcome)) :
    (run_tests margs initial_state (get_async_tests filter exports)).state.n_passed
          + (run_tests margs initial_state
              (get_async_tests filter exports)).state.failed.length
        = (get_async_tests filter exports).length ∧
      (run_tests margs initial_state (get_async_tests filter exports)).state.n_passed
        = ((get_async_tests filter exports).filter (fun p => isResolve p.2)).length ∧
      (run_tests margs initial_state (get_async_tests filter exports)).state.failed
        = ((get_async_tests filter exports).filter (fun p => !isResolve p.2)).map
            Prod.fst := by
  have h := run_tests_counts margs (get_async_tests filter exports) initial_state
    (get_async_tests_names_ne_empty filter exports)
  have h1 := h.1
  have h2 := h.2
  rw [show initial_state.n_passed = 0 from rfl, Nat.zero_add] at h1
  rw [show initial_state.failed = [] from rfl, List.nil_append] at h2
  refine ⟨?_, h1, h2⟩
  rw [h1, h2, List.length_map]
  exact length_filter_partition (fun p => isResolve p.2)
    (get_async_tests filter exports)

/-- Claim C6: discovery turns into test cases exactly the exports whose
symbol matches `__async_test__<name>` with at most one optional leading
underscore, and, when the filter is non-null, keeps exactly those whose
captured name contains the filter as a plain substring. -/
theorem discovery_selects_exactly {α : Type} (filter : Option String)
    (exports : List (String × α)) (name : String) :
    name ∈ (get_async_tests filter exports).map Prod.fst ↔
      (∃ p ∈ exports, matchesPattern p.1 name) ∧
        ∀ f, filter = some f → f.data <:+: name.data := by
  rw [mem_map_fst_get_async_tests]
  constructor
  · rintro ⟨p, hp, hm, hf⟩
    refine ⟨⟨p, hp, (asyncTestName_eq_some_iff p.1 name).mp hm⟩, ?_⟩
    intro f hfil
    rw [hfil] at hf
    exact (jsIncludes_iff name f).mp hf
  · rintro ⟨⟨p, hp, hm⟩, hf⟩
    refine ⟨p, hp, (asyncTestName_eq_some_iff p.1 name).mpr hm, ?_⟩
    cases filter with
    | none => rfl
    | some f => exact (jsIncludes_iff name f).mpr (hf f rfl)

theorem discovery_selects_exactly_witness :
    (∃ p ∈ [("__async_test__foo_bar", (0 : Nat))], matchesPattern p.1 "foo_bar") ∧
      ∀ f, (some "bar" : Option String) = some f → f.data <:+: "foo_bar".data :=
  (discovery_selects_exactly (some "bar") [("__async_test__foo_bar", 0)]
    "foo_bar").mp (by decide)

/-- Claim C7: with zero discovered tests the harness goes straight to
the real `main` with the originally captured arguments and exits with
status 0; the printed text is exactly the all-passed summary — it
contains no `running` banner and no per-test `... ` line. -/
theorem zero_tests_invokes_main (margs : List Int) :
    run_tests margs initial_state [] =
        { state := initial_state,
          printed := "test result (async): ok. 0 passed; 0 failed\n\n",
          ranMainWith := some margs,
          exitStatus := some 0,
          execOrder := [] } ∧
      hasSubstrAux "running".data
        "test result (async): ok. 0 passed; 0 failed\n\n".data = false ∧
      hasSubstrAux " ... ".data
        "test result (async): ok. 0 passed; 0 failed\n\n".data = false :=
  ⟨rfl, by decide, by decide⟩

theorem zero_tests_invokes_main_witness :
    run_tests [3, 4] initial_state [] =
        { state := initial_state,
          printed := "test result (async): ok. 0 passed; 0 failed\n\n",
          ranMainWith := some [3, 4],
          exitStatus := some 0,
          execOrder := [] } ∧
      hasSubstrAux "running".data
        "test result (async): ok. 0 passed; 0 failed\n\n".data = false ∧
      hasSubstrAux " ... ".data
        "test result (async): ok. 0 passed; 0 failed\n\n".data = false :=
  zero_tests_invokes_main [3, 4]

/-- Claim C8: a synchronous throw from a test body takes exactly the
same path as an asynchronous rejection with the same error — the run
results are equal, the test is recorded as failed with the thrown error
captured in its output, and the scheduler proceeds to the next test; the
run function is total, so no error propagates past it. -/
theorem sync_throw_same_as_rejection (margs : List Int) (st : HarnessState)
    (nm : String) (e : JsVal) (rest : List (String × Outcome)) (hnm : nm ≠ "") :
    run_tests margs st ((nm, Outcome.throwsSync e) :: rest) =
        run_tests margs st ((nm, Outcome.rejects e) :: rest) ∧
      (rejectState { st with outputs := objInsert nm "" st.outputs } nm e).failed
        = st.failed ++ [nm] ∧
      objGet nm (rejectState { st with outputs := objInsert nm "" st.outputs } nm
          e).outputs = some (rejectedText e) ∧
      (run_tests margs st ((nm, Outcome.throwsSync e) :: rest)).execOrder =
        nm :: (run_tests margs
          (rejectState { st with outputs := objInsert nm "" st.outputs } nm e)
          rest).execOrder := by
  refine ⟨rfl, rfl, ?_, ?_⟩
  · exact objGet_objAppend_of_present nm (rejectedText e) ""
      (objInsert nm "" st.outputs) (objGet_objInsert_self nm "" st.outputs)
  · rw [run_tests, if_neg hnm]
    rfl

theorem sync_throw_same_as_rejection_witness :
    run_tests [] initial_state [("t", Outcome.throwsSync (JsVal.str "boom"))] =
        run_tests [] initial_state [("t", Outcome.rejects (JsVal.str "boom"))] ∧
      (rejectState { initial_state with
          outputs := objInsert "t" "" initial_state.outputs } "t"
          (JsVal.str "boom")).failed = initial_state.failed ++ ["t"] ∧
      objGet "t" (rejectState { initial_state with
          outputs := objInsert "t" "" initial_state.outputs } "t"
          (JsVal.str "boom")).outputs = some (rejectedText (JsVal.str "boom")) ∧
      (run_tests [] initial_state
          [("t", Outcome.throwsSync (JsVal.str "boom"))]).execOrder =
        "t" :: (run_tests []
          (rejectState { initial_state with
            outputs := objInsert "t" "" initial_state.outputs } "t"
            (JsVal.str "boom")) []).execOrder :=
  sync_throw_same_as_rejection [] initial_state "t" (JsVal.str "boom") [] (by decide)

/-- Claim C9: the discovered key sequence lists, in export-enumeration
order, exactly the matching (post-filter) names, and the run executes
the tests in exactly that sequence — nothing reordered, skipped or
retried.  (The hypothesis rules out duplicate captured names, which the
`tests` object would collapse onto one key.) -/
theorem exec_order_matches_discovery (margs : List Int) (filter : Option String)
    (exports : List (String × Outcome))
    (hnd : (matchedNames filter exports).Nodup) :
    (get_async_tests filter exports).map Prod.fst = matchedNames filter exports ∧
      (run_tests margs initial_state (get_async_tests filter exports)).execOrder =
        (get_async_tests filter exports).map Prod.fst :=
  ⟨map_fst_get_async_tests filter exports hnd,
    run_tests_execOrder margs (get_async_tests filter exports) initial_state
      (get_async_tests_names_ne_empty filter exports)⟩

theorem exec_order_matches_discovery_witness :
    (get_async_tests none
          [("__async_test__a", Outcome.resolves), ("main", Outcome.resolves),
            ("___async_test__b", Outcome.hangs)]).map Prod.fst =
        matchedNames none
          [("__async_test__a", Outcome.resolves), ("main", Outcome.resolves),
            ("___async_test__b", Outcome.hangs)] ∧
      (run_tests [] initial_state (get_async_tests none
          [("__async_test__a", Outcome.resolves), ("main", Outcome.resolves),
            ("___async_test__b", Outcome.hangs)])).execOrder =
        (get_async_tests none
          [("__async_test__a", Outcome.resolves), ("main", Outcome.resolves),
            ("___async_test__b", Outcome.hangs)]).map Prod.fst :=
  exec_order_matches_discovery [] none
    [("__async_test__a", Outcome.resolves), ("main", Outcome.resolves),
      ("___async_test__b", Outcome.hangs)] (by decide)

/-- Claim C10: the patched exit wrapper promotes only status 0 — with a
non-empty failed list a 0 status becomes 101, while any non-zero status
is forwarded to the real exit unchanged regardless of failures, and 0
with no failures stays 0. -/
theorem exit_wrapper_promotes_only_zero (failed : List String) (status : Int) :
    (status ≠ 0 → Harness.exit failed status = status) ∧
      (failed ≠ [] → Harness.exit failed 0 = 101) ∧
      Harness.exit [] 0 = 0 := by
  refine ⟨?_, ?_, by simp [Harness.exit]⟩
  · intro h
    rw [Harness.exit, if_neg]
    rintro ⟨-, h0⟩
    exact h h0
  · intro h
    rw [Harness.exit, if_pos]
    exact ⟨fun hc => h (List.length_eq_zero.mp hc), rfl⟩

theorem exit_wrapper_promotes_only_zero_witness :
    Harness.exit ["t"] 0 = 101 ∧ Harness.exit ["t"] 7 = 7 :=
  ⟨(exit_wrapper_promotes_only_zero ["t"] 0).2.1 (by decide),
    (exit_wrapper_promotes_only_zero ["t"] 7).1 (by decide)⟩

end Harness
